import Mathlib

/-!
Verification of the Monero cnBase58 block codec (src/monero/base58.ts) and
the standard-address decoder (src/monero/decodeAddress.ts).

Byte sequences are modelled as `List Nat` with every element below 256
(a `Uint8Array` cannot hold anything else); strings are `List Char`
(every character involved is a single ASCII code unit). Fallible
operations return `Except`/`Option`; the two distinct `throw` sites of
the decoder become the two constructors of `B58Err`.
-/

deriving instance DecidableEq for Except

namespace Paylinks

/-- The 58-character ordered alphabet from base58.ts. -/
def ALPHABET : List Char :=
  "123456789ABCDEFGHJKLMNPQRSTUVWXYZabcdefghijkmnopqrstuvwxyz".toList

/-- The constant `BASE = 58n`. -/
def BASE : Nat := 58

/-- The constant `FULL_BLOCK_SIZE = 8`. -/
def FULL_BLOCK_SIZE : Nat := 8

/-- The constant `FULL_ENCODED_BLOCK_SIZE = 11`. -/
def FULL_ENCODED_BLOCK_SIZE : Nat := 11

/-- Table `getEncodedBlockSize`: decoded bytes -> encoded chars; the `default`
branch (`throw`) is `none`. -/
def getEncodedBlockSize : Nat → Option Nat
  | 1 => some 2
  | 2 => some 3
  | 3 => some 5
  | 4 => some 6
  | 5 => some 7
  | 6 => some 9
  | 7 => some 10
  | 8 => some 11
  | _ => none

/-- Table `getDecodedBlockSize`: encoded chars -> decoded bytes; the `default`
branch (`throw`) is `none`. -/
def getDecodedBlockSize : Nat → Option Nat
  | 2 => some 1
  | 3 => some 2
  | 5 => some 3
  | 6 => some 4
  | 7 => some 5
  | 9 => some 6
  | 10 => some 7
  | 11 => some 8
  | _ => none

/-- The decoder's two `throw` sites in base58.ts. -/
inductive B58Err where
  | invalidCharacter (c : Char)
  | invalidBlockSize (size : Nat)
deriving DecidableEq

/-- Conversion `bytesToBigInt`: big-endian fold, `n = (n << 8n) + b`. -/
def bytesToBigInt (bytes : List Nat) : Nat :=
  bytes.foldl (fun n b => n * 256 + b) 0

/-- The digit loop of `encodeBlock`: `size` iterations of
`rem = num % BASE; num = num / BASE`, least-significant digit first. -/
def natToFixedDigitsLE (base : Nat) : Nat → Nat → List Nat
  | _, 0 => []
  | num, size + 1 => num % base :: natToFixedDigitsLE base (num / base) size

/-- Block encoder `encodeBlock`: base-58 digits of the block value, pushed
least-significant first through the alphabet, then reversed. -/
def encodeBlock (data : List Nat) (encodedSize : Nat) : List Char :=
  ((natToFixedDigitsLE BASE (bytesToBigInt data) encodedSize).map
    (fun rem => ALPHABET.getD rem '1')).reverse

/-- The digit-accumulation loop of `decodeBlock`:
`digit = ALPHABET.indexOf(c); if (digit < 0) throw; num = num * BASE + digit`.
`List.indexOf` returns the list length when the element is absent, which is
exactly the out-of-range test. -/
def decodeBlockNum (num : Nat) : List Char → Except B58Err Nat
  | [] => .ok num
  | c :: rest =>
    let digit := ALPHABET.indexOf c
    if digit < ALPHABET.length then decodeBlockNum (num * BASE + digit) rest
    else .error (.invalidCharacter c)

/-- The while-loop of `bigIntToBytesMinimal`, least-significant byte first;
the first argument is fuel, sufficient whenever it is at least the number
being converted. -/
def natBytesLE : Nat → Nat → List Nat
  | _, 0 => []
  | 0, _ + 1 => []
  | fuel + 1, n + 1 => (n + 1) % 256 :: natBytesLE fuel ((n + 1) / 256)

/-- Conversion `bigIntToBytesMinimal`: minimal big-endian bytes, `[0]` for zero. -/
def bigIntToBytesMinimal (n : Nat) : List Nat :=
  if n = 0 then [0] else (natBytesLE n n).reverse

/-- Block decoder `decodeBlock`: accumulate the base-58 value, then left-pad with zero
bytes (or truncate from the left) to exactly `decodedSize` bytes. -/
def decodeBlock (data : List Char) (decodedSize : Nat) : Except B58Err (List Nat) :=
  match decodeBlockNum 0 data with
  | .error e => .error e
  | .ok num =>
    let full := bigIntToBytesMinimal num
    let start := if decodedSize < full.length then full.length - decodedSize else 0
    let len := min full.length decodedSize
    .ok (List.replicate (decodedSize - len) 0 ++ (full.drop start).take len)

/-- Encoder `cnBase58Encode`: full 8-byte blocks first, each to an 11-character
group, then the trailing block (if any) at its table width. The only
failure (`none`) is the `default` branch of `getEncodedBlockSize`. -/
def cnBase58Encode : List Nat → Option (List Char)
  | [] => some []
  | b0 :: b1 :: b2 :: b3 :: b4 :: b5 :: b6 :: b7 :: rest =>
    (cnBase58Encode rest).map
      (fun tail =>
        encodeBlock [b0, b1, b2, b3, b4, b5, b6, b7] FULL_ENCODED_BLOCK_SIZE ++ tail)
  | last =>
    (getEncodedBlockSize last.length).map (fun size => encodeBlock last size)

/-- Decoder `cnBase58Decode`: full 11-character groups first, each to 8 bytes,
then the trailing group (if any) at its inverse-table width; a trailing
length absent from the table is the invalid-block-size error. -/
def cnBase58Decode : List Char → Except B58Err (List Nat)
  | [] => .ok []
  | c0 :: c1 :: c2 :: c3 :: c4 :: c5 :: c6 :: c7 :: c8 :: c9 :: c10 :: rest => do
    let block ← decodeBlock [c0, c1, c2, c3, c4, c5, c6, c7, c8, c9, c10] FULL_BLOCK_SIZE
    let tail ← cnBase58Decode rest
    pure (block ++ tail)
  | last =>
    match getDecodedBlockSize last.length with
    | none => .error (.invalidBlockSize last.length)
    | some size => decodeBlock last size

/-- The record returned by `decodeStandardAddress`; the TS field `prefix`
is a Lean keyword and is rendered `prefixByte`. Hex fields are character
lists. -/
structure DecodedMoneroAddress where
  prefixByte : Nat
  publicSpendKeyHex : List Char
  publicViewKeyHex : List Char
  checksumHex : List Char
deriving DecidableEq

/-- The failures of `decodeStandardAddress`: a propagated codec error, or
the invalid-decoded-address-length `throw` carrying the observed length. -/
inductive AddrErr where
  | codec (e : B58Err)
  | invalidLength (n : Nat)
deriving DecidableEq

/-- One lowercase hexadecimal digit, as produced by Node's
`Buffer.toString("hex")`. -/
def hexDigitChar (n : Nat) : Char :=
  "0123456789abcdef".toList.getD n '0'

/-- Rendering `bytesToHex`, modelling Node `Buffer.from(b).toString("hex")` — two lowercase
hex digits per byte, high nibble first. -/
def bytesToHex (b : List Nat) : List Char :=
  (b.map (fun x => [hexDigitChar (x / 16), hexDigitChar (x % 16)])).flatten

/-- Address decoder `decodeStandardAddress`: codec decode, length-69 check, then the four
field slices `[0]`, `[1..33)`, `[33..65)`, `[65..69)`. -/
def decodeStandardAddress (address : List Char) : Except AddrErr DecodedMoneroAddress :=
  match cnBase58Decode address with
  | .error e => .error (.codec e)
  | .ok decoded =>
    if decoded.length ≠ 69 then .error (.invalidLength decoded.length)
    else
      .ok
        { prefixByte := decoded.getD 0 0
          publicSpendKeyHex := bytesToHex ((decoded.drop 1).take 32)
          publicViewKeyHex := bytesToHex ((decoded.drop 33).take 32)
          checksumHex := bytesToHex ((decoded.drop 65).take 4) }

/-- Encoded width contributed by a trailing remainder of `r` bytes
(0 when `r = 0`: no trailing block), read off `getEncodedBlockSize`. -/
def encodedWidth (r : Nat) : Nat :=
  (getEncodedBlockSize r).getD 0

/-- Decoded width contributed by a trailing group of `m` characters
(0 when `m = 0`: no trailing group), read off `getDecodedBlockSize`. -/
def decodedWidth (m : Nat) : Nat :=
  (getDecodedBlockSize m).getD 0

/-! ## Digit machinery -/

theorem natToFixedDigitsLE_length (base : Nat) :
    ∀ (num size : Nat), (natToFixedDigitsLE base num size).length = size := by
  intro num size
  induction size generalizing num with
  | zero => rfl
  | succ s ih => simp [natToFixedDigitsLE, ih]

theorem natToFixedDigitsLE_zero (base : Nat) :
    ∀ (size : Nat), natToFixedDigitsLE base 0 size = List.replicate size 0 := by
  intro size
  induction size with
  | zero => rfl
  | succ s ih => simp [natToFixedDigitsLE, ih, List.replicate_succ]

theorem natToFixedDigitsLE_mem_lt (base : Nat) (hb : 0 < base) :
    ∀ (size num : Nat), ∀ d ∈ natToFixedDigitsLE base num size, d < base := by
  intro size
  induction size with
  | zero => intro num d hd; simp [natToFixedDigitsLE] at hd
  | succ s ih =>
    intro num d hd
    simp only [natToFixedDigitsLE, List.mem_cons] at hd
    rcases hd with rfl | hd
    · exact Nat.mod_lt _ hb
    · exact ih (num / base) d hd

theorem natToFixedDigitsLE_foldl (base : Nat) :
    ∀ (size num acc : Nat),
      ((natToFixedDigitsLE base num size).reverse).foldl (fun a d => a * base + d) acc
        = acc * base ^ size + num % base ^ size := by
  intro size
  induction size with
  | zero => intro num acc; simp [natToFixedDigitsLE, Nat.mod_one]
  | succ s ih =>
    intro num acc
    rw [natToFixedDigitsLE, List.reverse_cons, List.foldl_append, ih (num / base) acc]
    simp only [List.foldl_cons, List.foldl_nil]
    have h1 : num % base ^ (s + 1) = num % base + base * (num / base % base ^ s) := by
      rw [pow_succ, mul_comm (base ^ s) base]
      exact Nat.mod_mul
    rw [h1, pow_succ]
    ring

/-! ## Big-endian byte values -/

theorem bytesToBigInt_concat (l : List Nat) (b : Nat) :
    bytesToBigInt (l ++ [b]) = bytesToBigInt l * 256 + b := by
  simp [bytesToBigInt, List.foldl_append]

theorem bytesToBigInt_lt (l : List Nat) (h : ∀ x ∈ l, x < 256) :
    bytesToBigInt l < 256 ^ l.length := by
  induction l using List.reverseRecOn with
  | nil => simp [bytesToBigInt]
  | append_singleton l b ih =>
    rw [bytesToBigInt_concat]
    have hb : b < 256 := h b (by simp)
    have hl : bytesToBigInt l < 256 ^ l.length :=
      ih (fun x hx => h x (by simp [hx]))
    have : bytesToBigInt l * 256 + b < (bytesToBigInt l + 1) * 256 := by omega
    calc bytesToBigInt l * 256 + b < (bytesToBigInt l + 1) * 256 := this
      _ ≤ 256 ^ l.length * 256 := by
          exact Nat.mul_le_mul_right 256 (by omega)
      _ = 256 ^ (l ++ [b]).length := by
          simp [pow_succ]

theorem natToFixedDigitsLE_bytesToBigInt (l : List Nat) (h : ∀ x ∈ l, x < 256) :
    natToFixedDigitsLE 256 (bytesToBigInt l) l.length = l.reverse := by
  induction l using List.reverseRecOn with
  | nil => simp [bytesToBigInt, natToFixedDigitsLE]
  | append_singleton l b ih =>
    have hb : b < 256 := h b (by simp)
    have hlen : (l ++ [b]).length = l.length + 1 := by simp
    rw [bytesToBigInt_concat, hlen, natToFixedDigitsLE]
    have hmod : (bytesToBigInt l * 256 + b) % 256 = b := by omega
    have hdiv : (bytesToBigInt l * 256 + b) / 256 = bytesToBigInt l := by omega
    rw [hmod, hdiv, ih (fun x hx => h x (by simp [hx]))]
    simp

/-! ## Minimal byte sequences (`bigIntToBytesMinimal`) -/

theorem natBytesLE_zero (fuel : Nat) : natBytesLE fuel 0 = [] := by
  cases fuel <;> rfl

theorem natBytesLE_fuel (n : Nat) :
    ∀ (f1 f2 : Nat), n ≤ f1 → n ≤ f2 → natBytesLE f1 n = natBytesLE f2 n := by
  induction n using Nat.strong_induction_on with
  | _ n ih =>
    intro f1 f2 h1 h2
    match n, f1, f2 with
    | 0, f1, f2 => rw [natBytesLE_zero, natBytesLE_zero]
    | m + 1, a + 1, b + 1 =>
      show (m + 1) % 256 :: natBytesLE a ((m + 1) / 256)
          = (m + 1) % 256 :: natBytesLE b ((m + 1) / 256)
      have hlt : (m + 1) / 256 < m + 1 := Nat.div_lt_self (by omega) (by omega)
      rw [ih ((m + 1) / 256) hlt a b (by omega) (by omega)]

theorem natBytesLE_bound (n : Nat) :
    ∀ (fuel : Nat), n ≤ fuel → n < 256 ^ (natBytesLE fuel n).length := by
  induction n using Nat.strong_induction_on with
  | _ n ih =>
    intro fuel hf
    match n, fuel with
    | 0, fuel => rw [natBytesLE_zero]; simp
    | m + 1, f + 1 =>
      show m + 1 < 256 ^ ((m + 1) % 256 :: natBytesLE f ((m + 1) / 256)).length
      have hlt : (m + 1) / 256 < m + 1 := Nat.div_lt_self (by omega) (by omega)
      have hrec := ih ((m + 1) / 256) hlt f (by omega)
      simp only [List.length_cons, pow_succ]
      have h256 : (0:Nat) < 256 := by norm_num
      omega

theorem natBytesLE_mem_lt (n : Nat) :
    ∀ (fuel : Nat), ∀ d ∈ natBytesLE fuel n, d < 256 := by
  induction n using Nat.strong_induction_on with
  | _ n ih =>
    intro fuel d hd
    match n, fuel with
    | 0, fuel => rw [natBytesLE_zero] at hd; simp at hd
    | m + 1, f + 1 =>
      have hlt : (m + 1) / 256 < m + 1 := Nat.div_lt_self (by omega) (by omega)
      rcases List.mem_cons.mp hd with rfl | hmem
      · exact Nat.mod_lt _ (by omega)
      · exact ih ((m + 1) / 256) hlt f d hmem

/-- The fixed-width base-256 digits of `n % 256 ^ size` are the minimal
digits truncated to `size` and right-padded (most-significant side) with
zeros. -/
theorem natToFixedDigitsLE_natBytesLE (size : Nat) :
    ∀ (n fuel : Nat), n ≤ fuel →
      natToFixedDigitsLE 256 (n % 256 ^ size) size
        = (natBytesLE fuel n).take size
          ++ List.replicate (size - (natBytesLE fuel n).length) 0 := by
  induction size with
  | zero => intro n fuel hf; simp [natToFixedDigitsLE]
  | succ s ih =>
    intro n fuel hf
    match n, fuel with
    | 0, fuel =>
      rw [natBytesLE_zero]
      simp [Nat.zero_mod, natToFixedDigitsLE_zero]
    | m + 1, f + 1 =>
      show natToFixedDigitsLE 256 ((m + 1) % 256 ^ (s + 1)) (s + 1) = _
      have hmod1 : (m + 1) % 256 ^ (s + 1) % 256 = (m + 1) % 256 :=
        Nat.mod_mod_of_dvd _ (dvd_pow_self 256 (Nat.succ_ne_zero s))
      have hmoddiv : (m + 1) % 256 ^ (s + 1) / 256 = (m + 1) / 256 % 256 ^ s := by
        have h2 : 256 ^ (s + 1) = 256 * 256 ^ s := by
          rw [pow_succ, mul_comm]
        rw [h2]
        have h1 : (m + 1) % (256 * 256 ^ s)
            = (m + 1) % 256 + 256 * ((m + 1) / 256 % 256 ^ s) := Nat.mod_mul
        have h3 : (m + 1) % 256 < 256 := Nat.mod_lt _ (by omega)
        omega
      rw [natToFixedDigitsLE, hmod1, hmoddiv]
      have hlt : (m + 1) / 256 < m + 1 := Nat.div_lt_self (by omega) (by omega)
      rw [ih ((m + 1) / 256) f (by omega)]
      have hcons : natBytesLE (f + 1) (m + 1)
          = (m + 1) % 256 :: natBytesLE f ((m + 1) / 256) := rfl
      rw [hcons]
      simp only [List.take_succ_cons, List.length_cons, List.cons_append]
      have harith : s + 1 - ((natBytesLE f ((m + 1) / 256)).length + 1)
          = s - (natBytesLE f ((m + 1) / 256)).length := by omega
      rw [harith]

/-! ## The byte half of `decodeBlock`: pad / truncate to the block width -/

/-- The pad-or-truncate step of `decodeBlock` produces exactly the
fixed-width big-endian bytes of the value reduced modulo `256 ^ size`. -/
theorem decodeBlock_pad (num size : Nat) :
    (List.replicate (size - min (bigIntToBytesMinimal num).length size) 0
      ++ ((bigIntToBytesMinimal num).drop
            (if size < (bigIntToBytesMinimal num).length
             then (bigIntToBytesMinimal num).length - size else 0)).take
          (min (bigIntToBytesMinimal num).length size))
    = (natToFixedDigitsLE 256 (num % 256 ^ size) size).reverse := by
  match num with
  | 0 =>
    have hfull : bigIntToBytesMinimal 0 = [0] := rfl
    rw [hfull]
    match size with
    | 0 => rfl
    | d + 1 =>
      have h1 : min ([0] : List Nat).length (d + 1) = 1 := by simp
      have h2 : ¬ (d + 1 < ([0] : List Nat).length) := by simp
      rw [h1, if_neg h2]
      simp only [List.drop_zero, Nat.zero_mod, natToFixedDigitsLE_zero,
        List.reverse_replicate]
      rw [List.replicate_succ' d 0]
      simp
  | m + 1 =>
    set n := m + 1 with hn
    have hne : n ≠ 0 := by omega
    have hfull : bigIntToBytesMinimal n = (natBytesLE n n).reverse := by
      rw [bigIntToBytesMinimal, if_neg hne]
    set d := natBytesLE n n with hd
    set k := d.length with hk
    have hlenfull : (bigIntToBytesMinimal n).length = k := by
      rw [hfull]; simp [hk]
    have hmain : natToFixedDigitsLE 256 (n % 256 ^ size) size
        = d.take size ++ List.replicate (size - k) 0 :=
      natToFixedDigitsLE_natBytesLE size n n (le_refl n)
    rw [hmain, hfull, List.reverse_append, List.reverse_replicate]
    rcases Nat.lt_or_ge size k with hcase | hcase
    · -- truncation: size < k
      have hmin : min d.length size = size := by omega
      rw [List.length_reverse, hmin, if_pos (by omega)]
      have hdrop : (d.reverse).drop (k - size) = (d.take size).reverse := by
        have h1 : ((d.reverse).drop (k - size)).reverse
            = (d.reverse.reverse).take (d.reverse.length - (k - size)) := by
          rw [List.reverse_drop]
        rw [List.reverse_reverse, List.length_reverse, ← hk] at h1
        have h2 : k - (k - size) = size := by omega
        rw [h2] at h1
        calc (d.reverse).drop (k - size)
            = (((d.reverse).drop (k - size)).reverse).reverse := by
              rw [List.reverse_reverse]
          _ = (d.take size).reverse := by rw [h1]
      have h0a : size - size = 0 := by omega
      have h0b : size - k = 0 := by omega
      have h1 : ((List.take size d).reverse).length ≤ size := by
        simp only [List.length_reverse, List.length_take]
        omega
      rw [h0a, h0b, ← hk, hdrop, List.take_of_length_le h1]
    · -- padding: k ≤ size
      have hmin : min d.length size = k := by omega
      rw [List.length_reverse, hmin, if_neg (by omega)]
      have htake : d.take size = d := List.take_of_length_le (by omega)
      rw [htake]
      simp only [List.drop_zero]
      rw [List.take_of_length_le (by simp only [List.length_reverse]; omega)]

/-! ## The digit loop of `decodeBlock` -/

theorem decodeBlockNum_ok (cs : List Char) :
    ∀ (acc : Nat), (∀ c ∈ cs, c ∈ ALPHABET) →
      decodeBlockNum acc cs
        = .ok (cs.foldl (fun a c => a * BASE + ALPHABET.indexOf c) acc) := by
  induction cs with
  | nil => intro acc _; rfl
  | cons c rest ih =>
    intro acc h
    have hmem : c ∈ ALPHABET := h c (by simp)
    have hlt : ALPHABET.indexOf c < ALPHABET.length :=
      List.indexOf_lt_length.mpr hmem
    simp only [decodeBlockNum, if_pos hlt, List.foldl_cons]
    exact ih _ (fun x hx => h x (by simp [hx]))

theorem decodeBlockNum_isOk_iff (cs : List Char) :
    ∀ (acc : Nat),
      (∃ v, decodeBlockNum acc cs = .ok v) ↔ (∀ c ∈ cs, c ∈ ALPHABET) := by
  induction cs with
  | nil => intro acc; simp [decodeBlockNum]
  | cons c rest ih =>
    intro acc
    by_cases hmem : c ∈ ALPHABET
    · have hlt : ALPHABET.indexOf c < ALPHABET.length :=
        List.indexOf_lt_length.mpr hmem
      simp only [decodeBlockNum, if_pos hlt]
      rw [ih]
      constructor
      · intro h x hx
        rcases List.mem_cons.mp hx with rfl | hx'
        · exact hmem
        · exact h x hx'
      · intro h x hx
        exact h x (by simp [hx])
    · have hlt : ¬ ALPHABET.indexOf c < ALPHABET.length := by
        rw [Nat.not_lt]
        exact le_of_eq (List.indexOf_eq_length.mpr hmem).symm
      simp only [decodeBlockNum, if_neg hlt]
      constructor
      · intro h
        rcases h with ⟨v, hv⟩
        cases hv
      · intro h
        exact absurd (h c (by simp)) hmem

theorem decodeBlockNum_error (cs : List Char) (acc : Nat)
    (h : ¬ ∀ c ∈ cs, c ∈ ALPHABET) :
    ∃ e, decodeBlockNum acc cs = .error e := by
  rcases hres : decodeBlockNum acc cs with e | v
  · exact ⟨e, rfl⟩
  · exact absurd ((decodeBlockNum_isOk_iff cs acc).mp ⟨v, hres⟩) h

/-- Closed form of `decodeBlock`: the accumulated value reduced modulo
`256 ^ decodedSize`, rendered as fixed-width big-endian bytes. -/
theorem decodeBlock_eq (data : List Char) (decodedSize : Nat) :
    decodeBlock data decodedSize
      = match decodeBlockNum 0 data with
        | .error e => .error e
        | .ok num =>
          .ok ((natToFixedDigitsLE 256 (num % 256 ^ decodedSize) decodedSize).reverse) := by
  rw [decodeBlock]
  rcases hres : decodeBlockNum 0 data with e | num
  · rfl
  · simp only []
    rw [← decodeBlock_pad num decodedSize]

/-! ## Alphabet facts -/

theorem ALPHABET_length : ALPHABET.length = 58 := by decide

theorem ALPHABET_indexOf_getD : ∀ i, i < 58 → ALPHABET.indexOf (ALPHABET.getD i '1') = i := by
  decide

theorem ALPHABET_getD_mem : ∀ i, i < 58 → ALPHABET.getD i '1' ∈ ALPHABET := by
  decide

/-! ## `encodeBlock` -/

theorem encodeBlock_length (data : List Nat) (encodedSize : Nat) :
    (encodeBlock data encodedSize).length = encodedSize := by
  simp [encodeBlock, natToFixedDigitsLE_length]

theorem encodeBlock_mem (data : List Nat) (encodedSize : Nat) :
    ∀ c ∈ encodeBlock data encodedSize, c ∈ ALPHABET := by
  intro c hc
  simp only [encodeBlock, List.mem_reverse, List.mem_map] at hc
  rcases hc with ⟨d, hd, rfl⟩
  have : d < BASE := natToFixedDigitsLE_mem_lt BASE (by decide) _ _ d hd
  exact ALPHABET_getD_mem d this

theorem decodeBlockNum_encodeBlock (data : List Nat) (encodedSize : Nat) :
    decodeBlockNum 0 (encodeBlock data encodedSize)
      = .ok (bytesToBigInt data % BASE ^ encodedSize) := by
  rw [decodeBlockNum_ok _ _ (encodeBlock_mem data encodedSize)]
  congr 1
  rw [encodeBlock, ← List.map_reverse, List.foldl_map]
  have hext : ∀ (a : Nat), ∀ d ∈ (natToFixedDigitsLE BASE (bytesToBigInt data) encodedSize).reverse,
      a * BASE + ALPHABET.indexOf (ALPHABET.getD d '1') = a * BASE + d := by
    intro a d hd
    rw [List.mem_reverse] at hd
    have : d < BASE := natToFixedDigitsLE_mem_lt BASE (by decide) _ _ d hd
    rw [ALPHABET_indexOf_getD d this]
  rw [List.foldl_ext _ (fun a d => a * BASE + d) 0 hext, natToFixedDigitsLE_foldl]
  omega

/-- Round trip at the block level: a block of `size` bytes whose table
width `e` satisfies `256 ^ size ≤ 58 ^ e` decodes back exactly. -/
theorem decodeBlock_encodeBlock (data : List Nat) (encodedSize size : Nat)
    (hlen : data.length = size) (hbytes : ∀ x ∈ data, x < 256)
    (hfit : 256 ^ size ≤ BASE ^ encodedSize) :
    decodeBlock (encodeBlock data encodedSize) size = .ok data := by
  rw [decodeBlock_eq, decodeBlockNum_encodeBlock]
  have hv : bytesToBigInt data < 256 ^ size := hlen ▸ bytesToBigInt_lt data hbytes
  have h1 : bytesToBigInt data % BASE ^ encodedSize = bytesToBigInt data :=
    Nat.mod_eq_of_lt (lt_of_lt_of_le hv hfit)
  have h2 : bytesToBigInt data % 256 ^ size = bytesToBigInt data :=
    Nat.mod_eq_of_lt hv
  simp only [h1, h2]
  rw [← hlen, natToFixedDigitsLE_bytesToBigInt data hbytes, List.reverse_reverse]

/-! ## Shape equations for the multi-block loops -/

theorem cnBase58Encode_split (data : List Nat) (h : 8 ≤ data.length) :
    cnBase58Encode data
      = (cnBase58Encode (data.drop 8)).map
          (fun tail => encodeBlock (data.take 8) FULL_ENCODED_BLOCK_SIZE ++ tail) := by
  rcases data with _ | ⟨b0, _ | ⟨b1, _ | ⟨b2, _ | ⟨b3, _ | ⟨b4, _ | ⟨b5, _ | ⟨b6, _ | ⟨b7, rest⟩⟩⟩⟩⟩⟩⟩⟩
  all_goals first
    | rfl
    | (exfalso; simp at h)

theorem cnBase58Encode_short (data : List Nat) (h0 : data ≠ []) (h8 : data.length < 8) :
    cnBase58Encode data
      = (getEncodedBlockSize data.length).map (fun size => encodeBlock data size) := by
  rcases data with _ | ⟨b0, _ | ⟨b1, _ | ⟨b2, _ | ⟨b3, _ | ⟨b4, _ | ⟨b5, _ | ⟨b6, _ | ⟨b7, rest⟩⟩⟩⟩⟩⟩⟩⟩
  · exact absurd rfl h0
  all_goals first
    | rfl
    | (exfalso; simp at h8; omega)

theorem cnBase58Decode_split (s : List Char) (h : 11 ≤ s.length) :
    cnBase58Decode s
      = match decodeBlock (s.take 11) FULL_BLOCK_SIZE with
        | .error e => .error e
        | .ok block =>
          match cnBase58Decode (s.drop 11) with
          | .error e => .error e
          | .ok tail => .ok (block ++ tail) := by
  rcases s with _ | ⟨c0, _ | ⟨c1, _ | ⟨c2, _ | ⟨c3, _ | ⟨c4, _ | ⟨c5, _ | ⟨c6, _ | ⟨c7, _ | ⟨c8, _ | ⟨c9, _ | ⟨c10, rest⟩⟩⟩⟩⟩⟩⟩⟩⟩⟩⟩
  all_goals try (exfalso; simp at h; done)
  have ht : List.take 11 (c0 :: c1 :: c2 :: c3 :: c4 :: c5 :: c6 :: c7 :: c8 :: c9 :: c10 :: rest)
      = [c0, c1, c2, c3, c4, c5, c6, c7, c8, c9, c10] := rfl
  have hd : List.drop 11 (c0 :: c1 :: c2 :: c3 :: c4 :: c5 :: c6 :: c7 :: c8 :: c9 :: c10 :: rest)
      = rest := rfl
  rw [ht, hd]
  show (do
      let block ← decodeBlock [c0, c1, c2, c3, c4, c5, c6, c7, c8, c9, c10] FULL_BLOCK_SIZE
      let tail ← cnBase58Decode rest
      pure (block ++ tail)) = _
  rcases decodeBlock [c0, c1, c2, c3, c4, c5, c6, c7, c8, c9, c10] FULL_BLOCK_SIZE with e | block
  · rfl
  · rcases cnBase58Decode rest with e | tail <;> rfl

theorem cnBase58Decode_short (s : List Char) (h0 : s ≠ []) (h11 : s.length < 11) :
    cnBase58Decode s
      = match getDecodedBlockSize s.length with
        | none => .error (.invalidBlockSize s.length)
        | some size => decodeBlock s size := by
  rcases s with _ | ⟨c0, _ | ⟨c1, _ | ⟨c2, _ | ⟨c3, _ | ⟨c4, _ | ⟨c5, _ | ⟨c6, _ | ⟨c7, _ | ⟨c8, _ | ⟨c9, _ | ⟨c10, rest⟩⟩⟩⟩⟩⟩⟩⟩⟩⟩⟩
  · exact absurd rfl h0
  all_goals first
    | rfl
    | (exfalso; simp at h11; omega)

/-! ## Table facts (finite checks) -/

theorem getEncodedBlockSize_eq_width : ∀ L, 1 ≤ L → L < 8 →
    getEncodedBlockSize L = some (encodedWidth L) := by decide

theorem encodedWidth_range : ∀ L, 1 ≤ L → L < 8 →
    2 ≤ encodedWidth L ∧ encodedWidth L < 11 := by decide

theorem getDecodedBlockSize_encodedWidth : ∀ L, 1 ≤ L → L < 8 →
    getDecodedBlockSize (encodedWidth L) = some L := by decide

theorem pow_table_fit : ∀ L, 1 ≤ L → L < 8 →
    256 ^ L ≤ BASE ^ encodedWidth L := by decide

theorem pow_full_fit : 256 ^ 8 ≤ BASE ^ 11 := by decide

theorem getDecodedBlockSize_none_iff : ∀ m, 1 ≤ m → m < 11 →
    (getDecodedBlockSize m = none ↔ (m = 1 ∨ m = 4 ∨ m = 8)) := by decide

theorem getDecodedBlockSize_eq_width : ∀ m, m < 11 → ∀ d,
    getDecodedBlockSize m = some d → d = decodedWidth m := by decide

/-! ## `cnBase58Encode`: totality and output length -/

theorem cnBase58Encode_spec_aux : ∀ (fuel : Nat) (data : List Nat), data.length ≤ fuel →
    ∃ s, cnBase58Encode data = some s ∧
      s.length = 11 * (data.length / 8) + encodedWidth (data.length % 8) := by
  intro fuel
  induction fuel with
  | zero =>
    intro data hlen
    have : data = [] := List.eq_nil_of_length_eq_zero (by omega)
    subst this
    exact ⟨[], rfl, by decide⟩
  | succ f ih =>
    intro data hlen
    by_cases hempty : data = []
    · subst hempty
      exact ⟨[], rfl, by decide⟩
    · have h1 : 1 ≤ data.length := List.length_pos.mpr hempty
      by_cases h8 : data.length < 8
      · rw [cnBase58Encode_short data hempty h8,
            getEncodedBlockSize_eq_width data.length h1 h8]
        refine ⟨_, rfl, ?_⟩
        rw [encodeBlock_length]
        have hq : data.length / 8 = 0 := by omega
        have hr : data.length % 8 = data.length := by omega
        rw [hq, hr]
        omega
      · push_neg at h8
        rw [cnBase58Encode_split data h8]
        obtain ⟨s', hs', hlen'⟩ := ih (data.drop 8) (by simp; omega)
        rw [hs']
        refine ⟨_, rfl, ?_⟩
        simp only [Option.map_some, List.length_append, encodeBlock_length]
        rw [hlen', List.length_drop]
        have hm : (data.length - 8) % 8 = data.length % 8 := by omega
        rw [hm]
        have hd : (data.length - 8) / 8 + 1 = data.length / 8 := by omega
        show FULL_ENCODED_BLOCK_SIZE + _ = _
        show 11 + (11 * ((data.length - 8) / 8) + encodedWidth (data.length % 8)) = _
        omega

theorem cnBase58Encode_spec (data : List Nat) :
    ∃ s, cnBase58Encode data = some s ∧
      s.length = 11 * (data.length / 8) + encodedWidth (data.length % 8) :=
  cnBase58Encode_spec_aux data.length data le_rfl

/-! ## Full round trip: decode after encode -/

theorem roundtrip_aux : ∀ (fuel : Nat) (data : List Nat), data.length ≤ fuel →
    (∀ x ∈ data, x < 256) →
    ∃ s, cnBase58Encode data = some s ∧ cnBase58Decode s = .ok data := by
  intro fuel
  induction fuel with
  | zero =>
    intro data hlen _
    have : data = [] := List.eq_nil_of_length_eq_zero (by omega)
    subst this
    exact ⟨[], rfl, rfl⟩
  | succ f ih =>
    intro data hlen hbytes
    by_cases hempty : data = []
    · subst hempty
      exact ⟨[], rfl, rfl⟩
    · have h1 : 1 ≤ data.length := List.length_pos.mpr hempty
      by_cases h8 : data.length < 8
      · -- a single trailing block
        rw [cnBase58Encode_short data hempty h8,
            getEncodedBlockSize_eq_width data.length h1 h8]
        refine ⟨_, rfl, ?_⟩
        set s := encodeBlock data (encodedWidth data.length) with hs
        have hslen : s.length = encodedWidth data.length := encodeBlock_length _ _
        obtain ⟨hw2, hw11⟩ := encodedWidth_range data.length h1 h8
        have hsne : s ≠ [] := by
          intro hnil
          rw [hnil] at hslen
          simp at hslen
          omega
        rw [cnBase58Decode_short s hsne (by omega), hslen,
            getDecodedBlockSize_encodedWidth data.length h1 h8]
        exact decodeBlock_encodeBlock data (encodedWidth data.length) data.length rfl
          hbytes (pow_table_fit data.length h1 h8)
      · -- a full block followed by the rest
        push_neg at h8
        rw [cnBase58Encode_split data h8]
        obtain ⟨tail, htail, htaildec⟩ :=
          ih (data.drop 8) (by simp; omega) (fun x hx => hbytes x (List.mem_of_mem_drop hx))
        rw [htail]
        refine ⟨_, rfl, ?_⟩
        set blk := encodeBlock (data.take 8) FULL_ENCODED_BLOCK_SIZE with hblk
        have hblklen : blk.length = 11 := encodeBlock_length _ _
        rw [cnBase58Decode_split (blk ++ tail) (by simp [hblklen])]
        have htk : (blk ++ tail).take 11 = blk := by
          rw [← hblklen, List.take_left]
        have hdr : (blk ++ tail).drop 11 = tail := by
          rw [← hblklen, List.drop_left]
        rw [htk, hdr]
        have hdecblk : decodeBlock blk FULL_BLOCK_SIZE = .ok (data.take 8) :=
          decodeBlock_encodeBlock (data.take 8) FULL_ENCODED_BLOCK_SIZE FULL_BLOCK_SIZE
            (by simp only [List.length_take, FULL_BLOCK_SIZE]; omega)
            (fun x hx => hbytes x (List.mem_of_mem_take hx))
            pow_full_fit
        rw [hdecblk, htaildec]
        show Except.ok (List.take 8 data ++ List.drop 8 data) = Except.ok data
        rw [List.take_append_drop]

theorem cnBase58_roundtrip (data : List Nat) (hbytes : ∀ x ∈ data, x < 256) :
    ∃ s, cnBase58Encode data = some s ∧ cnBase58Decode s = .ok data :=
  roundtrip_aux data.length data le_rfl hbytes

/-! ## `cnBase58Decode`: failure characterisation -/

theorem decodeBlock_error_iff (data : List Char) (size : Nat) :
    (∃ e, decodeBlock data size = .error e) ↔ ∃ c ∈ data, c ∉ ALPHABET := by
  rw [decodeBlock_eq]
  rcases hres : decodeBlockNum 0 data with e | num
  · simp only []
    constructor
    · intro _
      have hnot : ¬ ∀ c ∈ data, c ∈ ALPHABET := by
        intro hall
        obtain ⟨v, hv⟩ := (decodeBlockNum_isOk_iff data 0).mpr hall
        rw [hres] at hv
        cases hv
      push_neg at hnot
      exact hnot
    · intro _
      exact ⟨e, rfl⟩
  · simp only []
    constructor
    · rintro ⟨e, he⟩
      cases he
    · rintro ⟨c, hc, hcnot⟩
      exact absurd ((decodeBlockNum_isOk_iff data 0).mp ⟨num, hres⟩ c hc) hcnot

theorem decode_error_iff_aux : ∀ (fuel : Nat) (s : List Char), s.length ≤ fuel →
    ((∃ e, cnBase58Decode s = .error e) ↔
      ((∃ c ∈ s, c ∉ ALPHABET)
        ∨ s.length % 11 = 1 ∨ s.length % 11 = 4 ∨ s.length % 11 = 8)) := by
  intro fuel
  induction fuel with
  | zero =>
    intro s hlen
    have : s = [] := List.eq_nil_of_length_eq_zero (by omega)
    subst this
    simp [cnBase58Decode]
  | succ f ih =>
    intro s hlen
    by_cases hempty : s = []
    · subst hempty
      simp [cnBase58Decode]
    · have h1 : 1 ≤ s.length := List.length_pos.mpr hempty
      by_cases h11 : s.length < 11
      · have hmod : s.length % 11 = s.length := by omega
        rw [cnBase58Decode_short s hempty h11, hmod]
        rcases htab : getDecodedBlockSize s.length with _ | ds
        · have hbad : s.length = 1 ∨ s.length = 4 ∨ s.length = 8 :=
            (getDecodedBlockSize_none_iff s.length h1 h11).mp htab
          simp only []
          constructor
          · intro _
            right
            exact hbad
          · intro _
            exact ⟨.invalidBlockSize s.length, rfl⟩
        · have hgood : ¬ (s.length = 1 ∨ s.length = 4 ∨ s.length = 8) := by
            intro hbad
            rw [(getDecodedBlockSize_none_iff s.length h1 h11).mpr hbad] at htab
            cases htab
          simp only []
          rw [decodeBlock_error_iff]
          constructor
          · intro h
            exact Or.inl h
          · intro h
            rcases h with h | hm
            · exact h
            · exact absurd hm hgood
      · push_neg at h11
        rw [cnBase58Decode_split s h11]
        have hmem : (∃ c ∈ s, c ∉ ALPHABET)
            ↔ ((∃ c ∈ s.take 11, c ∉ ALPHABET) ∨ (∃ c ∈ s.drop 11, c ∉ ALPHABET)) := by
          constructor
          · rintro ⟨c, hc, hcnot⟩
            rw [← List.take_append_drop 11 s, List.mem_append] at hc
            rcases hc with hc | hc
            · exact Or.inl ⟨c, hc, hcnot⟩
            · exact Or.inr ⟨c, hc, hcnot⟩
          · rintro (⟨c, hc, hcnot⟩ | ⟨c, hc, hcnot⟩)
            · exact ⟨c, List.mem_of_mem_take hc, hcnot⟩
            · exact ⟨c, List.mem_of_mem_drop hc, hcnot⟩
        have hmod : (s.drop 11).length % 11 = s.length % 11 := by
          rw [List.length_drop]
          omega
        have hrec := ih (s.drop 11) (by rw [List.length_drop]; omega)
        rw [hmod] at hrec
        rcases hblk : decodeBlock (s.take 11) FULL_BLOCK_SIZE with e | blk
        · have hbadT : ∃ c ∈ s.take 11, c ∉ ALPHABET :=
            (decodeBlock_error_iff _ _).mp ⟨e, hblk⟩
          simp only []
          constructor
          · intro _
            exact Or.inl (hmem.mpr (Or.inl hbadT))
          · intro _
            exact ⟨e, rfl⟩
        · have hgoodT : ¬ ∃ c ∈ s.take 11, c ∉ ALPHABET := by
            intro hbad
            obtain ⟨e, he⟩ := (decodeBlock_error_iff (s.take 11) FULL_BLOCK_SIZE).mpr hbad
            rw [hblk] at he
            cases he
          rcases hrest : cnBase58Decode (s.drop 11) with e | tail
          · have : ∃ e, cnBase58Decode (s.drop 11) = .error e := ⟨e, hrest⟩
            have hrhs := hrec.mp this
            simp only []
            constructor
            · intro _
              rcases hrhs with hbadD | hm
              · exact Or.inl (hmem.mpr (Or.inr hbadD))
              · exact Or.inr hm
            · intro _
              exact ⟨e, rfl⟩
          · have hnone : ¬ ∃ e, cnBase58Decode (s.drop 11) = .error e := by
              rintro ⟨e, he⟩
              rw [hrest] at he
              cases he
            have hrhs := fun h => hnone (hrec.mpr h)
            simp only []
            constructor
            · rintro ⟨e, he⟩
              cases he
            · intro h
              exfalso
              rcases h with hbad | hm
              · rcases hmem.mp hbad with hbadT | hbadD
                · exact hgoodT hbadT
                · exact hrhs (Or.inl hbadD)
              · exact hrhs (Or.inr hm)

theorem decode_error_iff (s : List Char) :
    (∃ e, cnBase58Decode s = .error e) ↔
      ((∃ c ∈ s, c ∉ ALPHABET)
        ∨ s.length % 11 = 1 ∨ s.length % 11 = 4 ∨ s.length % 11 = 8) :=
  decode_error_iff_aux s.length s le_rfl

/-! ## `cnBase58Decode`: output length and byte range -/

theorem decodeBlock_length (data : List Char) (size : Nat) (b : List Nat)
    (h : decodeBlock data size = .ok b) : b.length = size := by
  rw [decodeBlock_eq] at h
  rcases hres : decodeBlockNum 0 data with e | num
  · rw [hres] at h
    cases h
  · rw [hres] at h
    simp only [Except.ok.injEq] at h
    rw [← h, List.length_reverse, natToFixedDigitsLE_length]

theorem decodeBlock_mem_lt (data : List Char) (size : Nat) (b : List Nat)
    (h : decodeBlock data size = .ok b) : ∀ x ∈ b, x < 256 := by
  rw [decodeBlock_eq] at h
  rcases hres : decodeBlockNum 0 data with e | num
  · rw [hres] at h
    cases h
  · rw [hres] at h
    simp only [Except.ok.injEq] at h
    intro x hx
    rw [← h, List.mem_reverse] at hx
    exact natToFixedDigitsLE_mem_lt 256 (by omega) _ _ x hx

theorem decode_length_aux : ∀ (fuel : Nat) (s : List Char) (b : List Nat),
    s.length ≤ fuel → cnBase58Decode s = .ok b →
    b.length = 8 * (s.length / 11) + decodedWidth (s.length % 11) := by
  intro fuel
  induction fuel with
  | zero =>
    intro s b hlen hdec
    have : s = [] := List.eq_nil_of_length_eq_zero (by omega)
    subst this
    cases hdec
    decide
  | succ f ih =>
    intro s b hlen hdec
    by_cases hempty : s = []
    · subst hempty
      cases hdec
      decide
    · have h1 : 1 ≤ s.length := List.length_pos.mpr hempty
      by_cases h11 : s.length < 11
      · rw [cnBase58Decode_short s hempty h11] at hdec
        have hmod : s.length % 11 = s.length := by omega
        have hq : s.length / 11 = 0 := by omega
        rcases htab : getDecodedBlockSize s.length with _ | ds
        · rw [htab] at hdec
          cases hdec
        · rw [htab] at hdec
          have := decodeBlock_length s ds b hdec
          have hwidth : ds = decodedWidth s.length :=
            getDecodedBlockSize_eq_width s.length h11 ds htab
          rw [hmod, hq]
          omega
      · push_neg at h11
        rw [cnBase58Decode_split s h11] at hdec
        rcases hblk : decodeBlock (s.take 11) FULL_BLOCK_SIZE with e | blk
        · rw [hblk] at hdec
          cases hdec
        · rw [hblk] at hdec
          rcases hrest : cnBase58Decode (s.drop 11) with e | tail
          · rw [hrest] at hdec
            cases hdec
          · rw [hrest] at hdec
            simp only [Except.ok.injEq] at hdec
            have hblklen : blk.length = 8 := decodeBlock_length _ _ _ hblk
            have htaillen := ih (s.drop 11) tail (by rw [List.length_drop]; omega) hrest
            rw [List.length_drop] at htaillen
            have hmod : (s.length - 11) % 11 = s.length % 11 := by omega
            rw [hmod] at htaillen
            rw [← hdec, List.length_append, hblklen, htaillen]
            have hq : (s.length - 11) / 11 + 1 = s.length / 11 := by omega
            omega

theorem decode_length (s : List Char) (b : List Nat) (h : cnBase58Decode s = .ok b) :
    b.length = 8 * (s.length / 11) + decodedWidth (s.length % 11) :=
  decode_length_aux s.length s b le_rfl h

theorem decode_mem_lt_aux : ∀ (fuel : Nat) (s : List Char) (b : List Nat),
    s.length ≤ fuel → cnBase58Decode s = .ok b → ∀ x ∈ b, x < 256 := by
  intro fuel
  induction fuel with
  | zero =>
    intro s b hlen hdec
    have : s = [] := List.eq_nil_of_length_eq_zero (by omega)
    subst this
    cases hdec
    simp
  | succ f ih =>
    intro s b hlen hdec
    by_cases hempty : s = []
    · subst hempty
      cases hdec
      simp
    · have h1 : 1 ≤ s.length := List.length_pos.mpr hempty
      by_cases h11 : s.length < 11
      · rw [cnBase58Decode_short s hempty h11] at hdec
        rcases htab : getDecodedBlockSize s.length with _ | ds
        · rw [htab] at hdec
          cases hdec
        · rw [htab] at hdec
          exact decodeBlock_mem_lt s ds b hdec
      · push_neg at h11
        rw [cnBase58Decode_split s h11] at hdec
        rcases hblk : decodeBlock (s.take 11) FULL_BLOCK_SIZE with e | blk
        · rw [hblk] at hdec
          cases hdec
        · rw [hblk] at hdec
          rcases hrest : cnBase58Decode (s.drop 11) with e | tail
          · rw [hrest] at hdec
            cases hdec
          · rw [hrest] at hdec
            simp only [Except.ok.injEq] at hdec
            intro x hx
            rw [← hdec, List.mem_append] at hx
            rcases hx with hx | hx
            · exact decodeBlock_mem_lt _ _ _ hblk x hx
            · exact ih (s.drop 11) tail (by rw [List.length_drop]; omega) hrest x hx

theorem decode_mem_lt (s : List Char) (b : List Nat) (h : cnBase58Decode s = .ok b) :
    ∀ x ∈ b, x < 256 :=
  decode_mem_lt_aux s.length s b le_rfl h

/-! ## Hex rendering and the address decoder -/

theorem hexDigitChar_mem : ∀ n, n < 16 → hexDigitChar n ∈ "0123456789abcdef".toList := by
  decide

theorem bytesToHex_length (b : List Nat) : (bytesToHex b).length = 2 * b.length := by
  induction b with
  | nil => rfl
  | cons x rest ih =>
    simp only [bytesToHex, List.map_cons, List.flatten_cons, List.length_append,
      List.length_cons, List.length_nil] at ih ⊢
    omega

theorem bytesToHex_mem (b : List Nat) (hb : ∀ x ∈ b, x < 256) :
    ∀ c ∈ bytesToHex b, c ∈ "0123456789abcdef".toList := by
  induction b with
  | nil => intro c hc; cases hc
  | cons x rest ih =>
    intro c hc
    have hx256 : x < 256 := hb x (by simp)
    simp only [bytesToHex, List.map_cons, List.flatten_cons, List.mem_append,
      List.mem_cons, List.not_mem_nil, or_false] at hc
    rcases hc with (rfl | rfl) | hc
    · exact hexDigitChar_mem (x / 16) (by omega)
    · exact hexDigitChar_mem (x % 16) (by omega)
    · exact ih (fun y hy => hb y (by simp [hy])) c hc

theorem decodeStandardAddress_ok (address : List Char) (d : List Nat)
    (hdec : cnBase58Decode address = .ok d) (hlen : d.length = 69) :
    decodeStandardAddress address
      = .ok
          { prefixByte := d.getD 0 0
            publicSpendKeyHex := bytesToHex ((d.drop 1).take 32)
            publicViewKeyHex := bytesToHex ((d.drop 33).take 32)
            checksumHex := bytesToHex ((d.drop 65).take 4) } := by
  simp only [decodeStandardAddress, hdec]
  rw [if_neg (fun h => h hlen)]

theorem decodeStandardAddress_badlen (address : List Char) (d : List Nat)
    (hdec : cnBase58Decode address = .ok d) (hlen : d.length ≠ 69) :
    decodeStandardAddress address = .error (.invalidLength d.length) := by
  simp only [decodeStandardAddress, hdec]
  rw [if_pos hlen]

theorem decodeStandardAddress_propagate (address : List Char) (e : B58Err)
    (hdec : cnBase58Decode address = .error e) :
    decodeStandardAddress address = .error (.codec e) := by
  simp only [decodeStandardAddress, hdec]

/-! ## Claims -/

/-- C1: for every byte sequence, decoding the result of encoding it
succeeds and returns the sequence byte-for-byte. -/
theorem claim_C1_decode_encode_roundtrip (data : List Nat)
    (hbytes : ∀ x ∈ data, x < 256) :
    ∃ s, cnBase58Encode data = some s ∧ cnBase58Decode s = .ok data :=
  cnBase58_roundtrip data hbytes

theorem claim_C1_witness :
    ∃ s, cnBase58Encode [0, 1, 255] = some s ∧ cnBase58Decode s = .ok [0, 1, 255] :=
  claim_C1_decode_encode_roundtrip [0, 1, 255] (by decide)

/-- C2 counterexample: the two-character string "zz" is accepted by
`cnBase58Decode` (value 3363 truncated mod 256 to the single byte 35),
but re-encoding the decoded bytes yields "1c", not "zz" — so
`encode(decode(s)) = s` fails for an accepted string. -/
theorem claim_C2_counterexample :
    cnBase58Decode ['z', 'z'] = .ok [35]
      ∧ cnBase58Encode [35] = some ['1', 'c']
      ∧ (['1', 'c'] : List Char) ≠ (['z', 'z'] : List Char) :=
  ⟨by decide, by decide, by decide⟩

/-- C2 (amended): `encode(decode(s)) = s` for every string `s` in the
image of the encoder — decode accepts some non-canonical strings whose
group value overflows the block width and truncates, and those
re-encode differently. -/
theorem claim_C2_encode_decode_canonical (s : List Char) (data : List Nat)
    (hbytes : ∀ x ∈ data, x < 256) (henc : cnBase58Encode data = some s) :
    ∃ d, cnBase58Decode s = .ok d ∧ cnBase58Encode d = some s := by
  obtain ⟨s', hs', hdec⟩ := cnBase58_roundtrip data hbytes
  rw [henc] at hs'
  obtain rfl : s = s' := Option.some.inj hs'
  exact ⟨data, hdec, henc⟩

theorem claim_C2_witness :
    ∃ d, cnBase58Decode ['1', '1'] = .ok d ∧ cnBase58Encode d = some ['1', '1'] :=
  claim_C2_encode_decode_canonical ['1', '1'] [0] (by decide) (by decide)

/-- C3: `cnBase58Encode` is total — the invalid-decoded-block-size
branch is unreachable, because a trailing block, when present, has
length 1..7 and is always in the table. -/
theorem claim_C3_encode_total (data : List Nat) :
    (cnBase58Encode data).isSome = true := by
  obtain ⟨s, hs, _⟩ := cnBase58Encode_spec data
  rw [hs]
  rfl

/-- C4: every full 8-byte block encodes to exactly 11 characters (even
with leading zero bytes), a trailing block of length 1..7 encodes to
its exact table width (2, 3, 5, 6, 7, 9, 10), and the total encoded
length is `11 * (|b| / 8) + width (|b| % 8)` with width 0 at
remainder 0. -/
theorem claim_C4_encoded_lengths :
    (∀ block : List Nat, block.length = 8 →
        (encodeBlock block FULL_ENCODED_BLOCK_SIZE).length = 11)
      ∧ (∀ block : List Nat, 1 ≤ block.length → block.length ≤ 7 →
          (encodeBlock block (encodedWidth block.length)).length
            = encodedWidth block.length)
      ∧ (encodedWidth 0 = 0 ∧ encodedWidth 1 = 2 ∧ encodedWidth 2 = 3
          ∧ encodedWidth 3 = 5 ∧ encodedWidth 4 = 6 ∧ encodedWidth 5 = 7
          ∧ encodedWidth 6 = 9 ∧ encodedWidth 7 = 10)
      ∧ (∀ data : List Nat, ∃ s, cnBase58Encode data = some s ∧
          s.length = 11 * (data.length / 8) + encodedWidth (data.length % 8)) :=
  ⟨fun block _ => encodeBlock_length block FULL_ENCODED_BLOCK_SIZE,
   fun block _ _ => encodeBlock_length block (encodedWidth block.length),
   by decide,
   cnBase58Encode_spec⟩

theorem claim_C4_witness :
    (encodeBlock [0, 0, 0, 0, 0, 0, 0, 255] FULL_ENCODED_BLOCK_SIZE).length = 11
      ∧ (encodeBlock [9, 9, 9] (encodedWidth 3)).length = encodedWidth 3 :=
  ⟨claim_C4_encoded_lengths.1 [0, 0, 0, 0, 0, 0, 0, 255] (by decide),
   claim_C4_encoded_lengths.2.1 [9, 9, 9] (by decide) (by decide)⟩

/-- C5: `cnBase58Decode` fails exactly when the input has a character
outside the alphabet or the final group length (input length mod 11)
is 1, 4 or 8; an `Except` result returns no partial bytes on failure,
and every other input succeeds. -/
theorem claim_C5_decode_failure_iff (s : List Char) :
    (∃ e, cnBase58Decode s = .error e) ↔
      ((∃ c ∈ s, c ∉ ALPHABET)
        ∨ s.length % 11 = 1 ∨ s.length % 11 = 4 ∨ s.length % 11 = 8) :=
  decode_error_iff s

/-- C6: the decoded length depends only on the input length — 8 bytes
per full 11-character group plus the inverse-table width of the
trailing group; in particular accepted 95-character strings decode to
69 bytes. -/
theorem claim_C6_decode_length (s : List Char) (b : List Nat)
    (h : cnBase58Decode s = .ok b) :
    b.length = 8 * (s.length / 11) + decodedWidth (s.length % 11)
      ∧ (s.length = 95 → b.length = 69) := by
  have h1 := decode_length s b h
  refine ⟨h1, fun h95 => ?_⟩
  rw [h1, h95]
  decide

theorem claim_C6_witness :
    cnBase58Decode (List.replicate 22 '1') = .ok (List.replicate 16 0)
      ∧ (List.replicate 16 (0 : Nat)).length
          = 8 * ((List.replicate 22 '1').length / 11)
            + decodedWidth ((List.replicate 22 '1').length % 11) := by
  have hdec : cnBase58Decode (List.replicate 22 '1') = .ok (List.replicate 16 0) := by
    decide
  exact ⟨hdec, (claim_C6_decode_length _ _ hdec).1⟩

/-- C7: when the codec decode of the input yields 69 bytes `d`, the
returned record is the prefix byte `d[0]` and the lowercase-hex
renderings of `d[1..33)`, `d[33..65)` and `d[65..69)`, of 64, 64 and 8
characters respectively. -/
theorem claim_C7_address_fields (address : List Char) (d : List Nat)
    (hdec : cnBase58Decode address = .ok d) (hlen : d.length = 69) :
    ∃ r, decodeStandardAddress address = .ok r
      ∧ r.prefixByte = d.getD 0 0
      ∧ r.publicSpendKeyHex = bytesToHex ((d.drop 1).take 32)
      ∧ r.publicViewKeyHex = bytesToHex ((d.drop 33).take 32)
      ∧ r.checksumHex = bytesToHex ((d.drop 65).take 4)
      ∧ r.publicSpendKeyHex.length = 64
      ∧ r.publicViewKeyHex.length = 64
      ∧ r.checksumHex.length = 8
      ∧ (∀ c ∈ r.publicSpendKeyHex, c ∈ "0123456789abcdef".toList)
      ∧ (∀ c ∈ r.publicViewKeyHex, c ∈ "0123456789abcdef".toList) := by
  have hd256 := decode_mem_lt address d hdec
  refine ⟨_, decodeStandardAddress_ok address d hdec hlen,
    rfl, rfl, rfl, rfl, ?_, ?_, ?_, ?_, ?_⟩
  · rw [bytesToHex_length, List.length_take, List.length_drop, hlen]
    omega
  · rw [bytesToHex_length, List.length_take, List.length_drop, hlen]
    omega
  · rw [bytesToHex_length, List.length_take, List.length_drop, hlen]
    omega
  · exact bytesToHex_mem _
      (fun x hx => hd256 x (List.mem_of_mem_drop (List.mem_of_mem_take hx)))
  · exact bytesToHex_mem _
      (fun x hx => hd256 x (List.mem_of_mem_drop (List.mem_of_mem_take hx)))

theorem claim_C7_witness :
    ∃ r, decodeStandardAddress (List.replicate 95 '1') = .ok r
      ∧ r.prefixByte = (List.replicate 69 (0 : Nat)).getD 0 0
      ∧ r.publicSpendKeyHex.length = 64 := by
  obtain ⟨r, h1, h2, _, _, _, h6, _⟩ :=
    claim_C7_address_fields (List.replicate 95 '1') (List.replicate 69 0)
      (by decide) (by decide)
  exact ⟨r, h1, h2, h6⟩

/-- C8: `decodeStandardAddress` produces its invalid-length error
exactly when the codec decode succeeds with a length other than 69 (the
error carrying the observed length), and propagates codec failures
unchanged. -/
theorem claim_C8_invalid_length_iff (address : List Char) :
    (∀ d, cnBase58Decode address = .ok d → d.length ≠ 69 →
        decodeStandardAddress address = .error (.invalidLength d.length))
      ∧ (∀ n, decodeStandardAddress address = .error (.invalidLength n) →
          ∃ d, cnBase58Decode address = .ok d ∧ d.length = n ∧ n ≠ 69)
      ∧ (∀ e, cnBase58Decode address = .error e →
          decodeStandardAddress address = .error (.codec e)) := by
  refine ⟨fun d hd hne => decodeStandardAddress_badlen address d hd hne, ?_,
    fun e he => decodeStandardAddress_propagate address e he⟩
  intro n hn
  rcases hdec : cnBase58Decode address with e | d
  · rw [decodeStandardAddress_propagate address e hdec] at hn
    simp at hn
  · by_cases hlen : d.length = 69
    · rw [decodeStandardAddress_ok address d hdec hlen] at hn
      simp at hn
    · rw [decodeStandardAddress_badlen address d hdec hlen] at hn
      simp only [Except.error.injEq, AddrErr.invalidLength.injEq] at hn
      exact ⟨d, rfl, hn, by rw [← hn]; exact hlen⟩

theorem claim_C8_witness :
    decodeStandardAddress ['1'] = .error (.codec (.invalidBlockSize 1)) :=
  (claim_C8_invalid_length_iff ['1']).2.2 (.invalidBlockSize 1) (by decide)

/-- C9: no checksum or prefix validation — every 69-byte sequence,
whatever its first byte and its last four bytes, round-trips through
the codec into a successfully decoded record carrying those fields
verbatim. -/
theorem claim_C9_no_validation (data : List Nat) (hlen : data.length = 69)
    (hbytes : ∀ x ∈ data, x < 256) :
    ∃ s r, cnBase58Encode data = some s
      ∧ decodeStandardAddress s = .ok r
      ∧ r.prefixByte = data.getD 0 0
      ∧ r.publicSpendKeyHex = bytesToHex ((data.drop 1).take 32)
      ∧ r.publicViewKeyHex = bytesToHex ((data.drop 33).take 32)
      ∧ r.checksumHex = bytesToHex ((data.drop 65).take 4) := by
  obtain ⟨s, hs, hdec⟩ := cnBase58_roundtrip data hbytes
  exact ⟨s, _, hs, decodeStandardAddress_ok s data hdec hlen, rfl, rfl, rfl, rfl⟩

theorem claim_C9_witness :
    ∃ s r, cnBase58Encode (255 :: (List.replicate 64 0 ++ [9, 8, 7, 6])) = some s
      ∧ decodeStandardAddress s = .ok r
      ∧ r.prefixByte = (255 :: (List.replicate 64 (0 : Nat) ++ [9, 8, 7, 6])).getD 0 0
      ∧ r.publicSpendKeyHex
          = bytesToHex (((255 :: (List.replicate 64 0 ++ [9, 8, 7, 6])).drop 1).take 32)
      ∧ r.publicViewKeyHex
          = bytesToHex (((255 :: (List.replicate 64 0 ++ [9, 8, 7, 6])).drop 33).take 32)
      ∧ r.checksumHex
          = bytesToHex (((255 :: (List.replicate 64 0 ++ [9, 8, 7, 6])).drop 65).take 4) :=
  claim_C9_no_validation (255 :: (List.replicate 64 0 ++ [9, 8, 7, 6]))
    (by decide) (by decide)

/-- C10: both directions accept the empty input with empty output. -/
theorem claim_C10_empty :
    cnBase58Encode [] = some [] ∧ cnBase58Decode [] = .ok [] :=
  ⟨rfl, rfl⟩

end Paylinks
